import Mathlib

/-!
Shallow embedding of `src/main.py` (a Flask service that extracts "flashcards"
from PDF text via a generative-language API), together with theorems settling
the frozen claims C1..C10 about it.

Modelling conventions:
* Python strings are modelled as `List Char` (named `Str` below); this keeps
  every string operation structurally recursive and hence computable by `rfl`.
  `str.strip`, `str.split(sep)` and `int(...)` are re-implemented faithfully
  over `List Char` (Python's `\s` also covers `\f`, `\v` and some unicode
  whitespace which `Char.isWhitespace` omits; no claim depends on those).
* The external generative API (`model.generate_content` + `response.text`,
  lines 94-103 of main.py) is an oracle `api : Nat → Option Str`: `none` means
  the attempt raised (network error, bad status, rate limit, timeout, blocked
  response); `some raw` means the stripped response text was obtained.
* Python's `json.loads` (stdlib, external to the repo) is an oracle
  `decode : Str → Option (Decoded J)`: `none` is a `json.JSONDecodeError`;
  `Decoded.arr l` is a decoded JSON array (Python list) with elements `l`;
  `Decoded.sized` is a decoded non-list value that supports `len()` (a JSON
  object or string); `Decoded.unsized` is a decoded value without `len()`
  (a JSON number, boolean or null).  This taxonomy is exactly what the code
  at main.py lines 114-121 can distinguish: it calls `len(extracted_data)`
  (in a logging statement) before the `isinstance(extracted_data, list)`
  check, and `len` raises `TypeError` on unsized values.
* PDF bytes, base64 decoding and `fitz` text extraction are opaque oracles in
  the endpoint model.
-/

namespace Flashcards

/-- Python `str`, modelled as a list of characters. -/
abbrev Str := List Char

/-- Python `str.strip()`: drop whitespace from both ends. -/
def trimChars (s : Str) : Str :=
  ((s.dropWhile Char.isWhitespace).reverse.dropWhile Char.isWhitespace).reverse

/-- Helper for `splitOnChar`: `acc` holds the current (reversed) field. -/
def splitOnCharAux (c : Char) : List Char → List Char → List (List Char)
  | [], acc => [acc.reverse]
  | x :: xs, acc =>
    if x == c then acc.reverse :: splitOnCharAux c xs []
    else splitOnCharAux c xs (x :: acc)

/-- Python `str.split(c)` for a single-character separator `c`
(`"".split(c) = [""]`, separators are not merged). -/
def splitOnChar (c : Char) (s : Str) : List Str :=
  splitOnCharAux c s []

/-- `needle.isPrefixOf hay` over char lists (used by the regex model). -/
def startsWithChars : List Char → List Char → Bool
  | [], _ => true
  | _ :: _, [] => false
  | a :: as, b :: bs => a == b && startsWithChars as bs

/-- Python `int(s)` on a digits-only string (no sign): `none` models
`ValueError`.  (Python also accepts `_` digit separators and unicode digits;
no input in the claims uses them.) -/
def parseNatChars (s : Str) : Option Nat :=
  if s ≠ [] ∧ s.all Char.isDigit then
    some (s.foldl (fun n c => n * 10 + (c.toNat - '0'.toNat)) 0)
  else none

/-- Python `int(s)` for an optionally signed integer literal. -/
def parseIntChars : Str → Option Int
  | '-' :: rest => (parseNatChars rest).map (fun n => -(n : Int))
  | '+' :: rest => (parseNatChars rest).map (fun n => (n : Int))
  | s => (parseNatChars s).map (fun n => (n : Int))

/-! ### Credential pool initialization (main.py lines 23-39) -/

/-- The two `ValueError`s `initialize_gemini_api_keys` can raise. -/
inductive ConfigError : Type
  | notSet
  | noValidKeys
deriving DecidableEq

/-- Line 30: `[key.strip() for key in API_KEYS_STR.split(',') if key.strip()]` —
the non-empty stripped entries of the comma-separated credential list. -/
def validKeys (s : Str) : List Str :=
  ((splitOnChar ',' s).map trimChars).filter (fun k => !k.isEmpty)

/-- Lines 26-33 of `initialize_gemini_api_keys`: read `GEMINI_API_KEYS`
(`env`, `none` = unset), raise (`Except.error`) if it is unset/empty or
contains no non-empty entry, otherwise produce the key pool. -/
def initialize_gemini_api_keys (env : Option Str) : Except ConfigError (List Str) :=
  match env with
  | none => .error .notSet
  | some s =>
    if s = [] then .error .notSet
    else if validKeys s = [] then .error .noValidKeys
    else .ok (validKeys s)

/-! ### KeyRotator (`itertools.cycle(API_KEYS_LIST)`, lines 33 and 91) -/

/-- `itertools.cycle` over the key pool: the cursor `idx` counts how many
draws have happened; `next` returns `keys[idx % len(keys)]`. -/
structure KeyRotator : Type where
  keys : List Str
  idx : Nat

/-- `next(api_key_cycler)`: yield the current credential and advance. -/
def KeyRotator.next (r : KeyRotator) : Str × KeyRotator :=
  (r.keys.getD (r.idx % r.keys.length) [], ⟨r.keys, r.idx + 1⟩)

/-- The sequence produced by `n` successive `next()` calls. -/
def KeyRotator.draws (r : KeyRotator) : Nat → List Str
  | 0 => []
  | n + 1 => r.next.1 :: KeyRotator.draws r.next.2 n

/-! ### Chunk splitting (main.py lines 142-143:
`for i in range(0, text_len, chunk_size): chunk = full_text[i:i + chunk_size]`) -/

/-- Fuel-indexed splitter; `fuel ≥ length` suffices when `0 < S`. -/
def splitChunksGo (S : Nat) : Nat → List Char → List Str
  | 0, _ => []
  | _ + 1, [] => []
  | fuel + 1, l => l.take S :: splitChunksGo S fuel (l.drop S)

/-- The list of slices `full_text[i:i+S]` for `i = 0, S, 2S, ...`
(for positive `S` this is exactly the Python loop's chunk sequence). -/
def splitChunks (l : Str) (S : Nat) : List Str :=
  splitChunksGo S l.length l

/-! ### Response parsing (main.py lines 103-121) -/

/-- What `json.loads` can return, as far as lines 114-121 can tell apart. -/
inductive Decoded (J : Type) : Type
  | arr (elems : List J)
  | sized
  | unsized
deriving DecidableEq

/-- Lazy scan for the regex tail `.*?\]\s*` followed by three backticks
(`re.DOTALL`, so `.` also matches newlines): return the shortest body ending
at a close bracket that is followed by optional whitespace and the closing
fence.  `seen` is the (reversed) body consumed so far. -/
def scanToClose (seen : List Char) : List Char → Option (List Char)
  | [] => none
  | c :: rest =>
    if c == ']' && startsWithChars "```".toList (rest.dropWhile Char.isWhitespace) then
      some (seen.reverse ++ [']'])
    else scanToClose (c :: seen) rest

/-- Try to match the whole pattern at the start of `s`: the literal
 fence-plus-json tag, then `\s*`, then the group of the bracketed body. -/
def tryFenceAt (s : List Char) : Option (List Char) :=
  if startsWithChars "```json".toList s then
    match (s.drop 7).dropWhile Char.isWhitespace with
    | '[' :: t => (scanToClose [] t).map (fun body => '[' :: body)
    | _ => none
  else none

/-- `re.search` of a json-tagged fenced block holding a bracketed body, over
the raw text (leftmost match; within it the lazy-shortest body). -/
def findJsonFence : List Char → Option (List Char)
  | [] => none
  | s@(_ :: rest) =>
    match tryFenceAt s with
    | some g => some g
    | none => findJsonFence rest

/-- Lines 103-121: strip the raw response, take the fenced block's bracketed
body if the regex matches (else the whole stripped text), `json.loads` it.
`Except.ok l` models `return` of the record list (`[]` both for a decode
error, which the inner `except` turns into `return []`, and for a decoded
sized non-list, where `isinstance(..., list)` is `False`); `Except.error ()`
models the `TypeError` raised by `len(extracted_data)` on an unsized decoded
value, which escapes this block (only `json.JSONDecodeError` is caught). -/
def runParse (J : Type) (decode : Str → Option (Decoded J)) (raw : Str) :
    Except Unit (List J) :=
  let rawText := trimChars raw
  let jsonStr : Str :=
    match findJsonFence rawText with
    | some g => g
    | none => rawText
  match decode jsonStr with
  | none => .ok []
  | some (.arr l) => .ok l
  | some .sized => .ok []
  | some .unsized => .error ()

/-! ### ExtractionClient (`call_gemini_api_for_extraction`, lines 79-132) -/

/-- Observable trace of one `call_gemini_api_for_extraction` execution. -/
structure CallLog (J : Type) : Type where
  records : List J
  attempts : Nat
  sleeps : List Nat
  keysDrawn : List Str

/-- The body of the `try` block for attempt `i` (after the key draw):
`some l` means it reached a `return` with value `l`; `none` means an
exception escaped it (transport/API failure from the `api` oracle, or the
`len()` `TypeError` from `runParse`) and control passes to the `except`. -/
def attemptOutcome (J : Type) (decode : Str → Option (Decoded J))
    (api : Nat → Option Str) (i : Nat) : Option (List J) :=
  match api i with
  | none => none
  | some raw =>
    match runParse J decode raw with
    | .ok l => some l
    | .error _ => none

/-- The retry loop `for i in range(retries)` with `fuel` iterations left,
current attempt index `i` and rotator state `rot`.  Each iteration draws a
key (line 91), runs the attempt, and on failure either sleeps
`delay * 2 ** i` and retries (`i < retries - 1`, i.e. `fuel ≠ 0` after this
iteration) or returns `[]`.  Fuel `0` is the fall-through `return []`. -/
def callGeminiGo (J : Type) (decode : Str → Option (Decoded J))
    (api : Nat → Option Str) (delay : Nat) :
    Nat → Nat → KeyRotator → CallLog J
  | _, 0, _ => ⟨[], 0, [], []⟩
  | i, fuel + 1, rot =>
    let key := rot.next.1
    match attemptOutcome J decode api i with
    | some l => ⟨l, 1, [], [key]⟩
    | none =>
      if fuel = 0 then ⟨[], 1, [], [key]⟩
      else
        let rest := callGeminiGo J decode api delay (i + 1) fuel rot.next.2
        ⟨rest.records, rest.attempts + 1, delay * 2 ^ i :: rest.sleeps,
          key :: rest.keysDrawn⟩

/-- `call_gemini_api_for_extraction(text_chunk, custom_prompt, retries, delay)`
(defaults `retries = 5`, `delay = 2`), started on rotator state `rot`.
The chunk and prompt only feed the constructed prompt, which the `api`
oracle absorbs. -/
def call_gemini_api_for_extraction (J : Type) (decode : Str → Option (Decoded J))
    (api : Nat → Option Str) (retries delay : Nat) (rot : KeyRotator) : CallLog J :=
  callGeminiGo J decode api delay 0 retries rot

/-! ### ExtractionPipeline (`process_text_in_chunks_for_api`, lines 134-151) -/

/-- The chunk loop: `client chunk prompt` is one
`call_gemini_api_for_extraction(chunk, custom_prompt)` invocation's record
list; `if chunk_data: all_flashcards.extend(chunk_data)` is the guarded
extend.  Returns the accumulator and the trace of chunks sent, in order. -/
def processChunksGo (J : Type) (client : Str → Str → List J) (prompt : Str) :
    List Str → List J × List Str
  | [] => ([], [])
  | c :: cs =>
    let d := client c prompt
    let rest := processChunksGo J client prompt cs
    ((if d.isEmpty then [] else d) ++ rest.1, c :: rest.2)

/-- `process_text_in_chunks_for_api(full_text, custom_prompt, chunk_size)`:
split into chunks, call the client on each in order, concatenate. -/
def process_text_in_chunks_for_api (J : Type) (client : Str → Str → List J)
    (full_text : Str) (custom_prompt : Str) (chunk_size : Nat) :
    List J × List Str :=
  processChunksGo J client custom_prompt (splitChunks full_text chunk_size)

/-! ### Page-range handling (`extract_text_from_pdf_bytes`, lines 51-70) -/

/-- Python `range(start, end + 1)` over `Int` (empty when `end < start`). -/
def intRangeIncl (s e : Int) : List Int :=
  (List.range (e + 1 - s).toNat).map (fun i => s + i)

/-- Lines 54-61, one comma-separated part: strip it, expand `a-b` into the
inclusive range (the split must give exactly two pieces, else the tuple
unpacking raises), or parse a single page number.  `none` = exception. -/
def parseRangePart (part : Str) : Option (List Int) :=
  let p := trimChars part
  if p.contains '-' then
    match splitOnChar '-' p with
    | [a, b] =>
      match parseIntChars (trimChars a), parseIntChars (trimChars b) with
      | some s, some e => some (intRangeIncl s e)
      | _, _ => none
    | _ => none
  else
    (parseIntChars p).map (fun n => [n])

/-- Lines 53-61: the `pages_to_extract` list accumulated over the
comma-separated parts of `page_range_str`, before bounds filtering. -/
def parse_page_range_str (s : Str) : Option (List Int) :=
  ((splitOnChar ',' s).mapM parseRangePart).map List.flatten

/-- Line 64: `sorted(list(set(p for p in pages_to_extract if 1 <= p <= len(document))))`
with `numPages` document pages. -/
def pages_to_extract (pages : List Int) (numPages : Nat) : List Int :=
  List.insertionSort (· ≤ ·)
    ((pages.filter (fun p => decide (1 ≤ p) && decide (p ≤ (numPages : Int)))).dedup)

/-! ### HTTP boundary (`extract_flashcards_endpoint`, lines 155-203) -/

/-- The JSON request body (`request.json`); `Option` fields model key
presence, the whole `Option` models a falsy `data`. -/
structure RequestData : Type where
  pdfContent : Option Str
  pageRange : Option Str
  customPrompt : Option Str

/-- A Flask response: 200 with the flashcards, or an error status. -/
inductive HttpResponse (J : Type) : Type
  | success (cards : List J)
  | failure (status : Nat)
deriving DecidableEq

/-- Lines 168-203.  `b64decode` (`none` = `binascii` exception → 500) and
`extract_text` (`Except.error` = extraction exception → 500) are oracles, as
is the whole chunk pipeline `process : text → prompt → records`. -/
def extract_flashcards_endpoint (J B : Type) (env : Option Str)
    (data : Option RequestData) (b64decode : Str → Option B)
    (extract_text : B → Option Str → Except Unit Str)
    (process : Str → Str → List J) : HttpResponse J :=
  match initialize_gemini_api_keys env with
  | .error _ => .failure 500
  | .ok _ =>
    match data with
    | none => .failure 400
    | some d =>
      match d.pdfContent, d.customPrompt with
      | some pdfContent, some customPrompt =>
        if pdfContent = [] then .failure 400
        else
          match b64decode pdfContent with
          | none => .failure 500
          | some bytes =>
            match extract_text bytes d.pageRange with
            | .error _ => .failure 500
            | .ok text =>
              if text = [] then .failure 400
              else .success (process text customPrompt)
      | _, _ => .failure 400

/-! ## Helper lemmas: chunk splitting -/

lemma splitChunksGo_nil (S fuel : Nat) : splitChunksGo S fuel ([] : List Char) = [] := by
  cases fuel <;> rfl

lemma splitChunksGo_ne_nil (S fuel : Nat) (l : List Char) (hl : l ≠ [])
    (hfuel : l.length ≤ fuel) : splitChunksGo S fuel l ≠ [] := by
  cases fuel with
  | zero =>
    cases l with
    | nil => exact absurd rfl hl
    | cons a t => simp at hfuel
  | succ n =>
    cases l with
    | nil => exact absurd rfl hl
    | cons a t => simp [splitChunksGo]

lemma splitChunksGo_spec (S : Nat) (hS : 0 < S) :
    ∀ (fuel : Nat) (l : List Char), l.length ≤ fuel →
      (splitChunksGo S fuel l).flatten = l
      ∧ (splitChunksGo S fuel l).length = (l.length + S - 1) / S
      ∧ (∀ c ∈ (splitChunksGo S fuel l).dropLast, c.length = S)
      ∧ (∀ c ∈ splitChunksGo S fuel l, c.length ≤ S) := by
  intro fuel
  induction fuel with
  | zero =>
    intro l hl
    have : l = [] := List.eq_nil_of_length_eq_zero (Nat.le_zero.mp hl)
    subst this
    refine ⟨rfl, ?_, by simp [splitChunksGo], by simp [splitChunksGo]⟩
    have : S - 1 < S := by omega
    simp [splitChunksGo, Nat.div_eq_of_lt this]
  | succ n ih =>
    intro l hl
    cases l with
    | nil =>
      refine ⟨by simp [splitChunksGo_nil], ?_, by simp [splitChunksGo_nil],
        by simp [splitChunksGo_nil]⟩
      have : S - 1 < S := by omega
      simp [splitChunksGo_nil, Nat.div_eq_of_lt this]
    | cons a t =>
      have hgo : splitChunksGo S (n + 1) (a :: t) =
          (a :: t).take S :: splitChunksGo S n ((a :: t).drop S) := rfl
      have hlen : (a :: t).length = t.length + 1 := by simp
      have hdlen : ((a :: t).drop S).length ≤ n := by
        simp only [List.length_drop]
        omega
      obtain ⟨ihj, ihl, ihd, ihb⟩ := ih ((a :: t).drop S) hdlen
      refine ⟨?_, ?_, ?_, ?_⟩
      · rw [hgo, List.flatten_cons, ihj, List.take_append_drop]
      · rw [hgo, List.length_cons, ihl]
        rcases le_or_lt (a :: t).length S with hle | hlt
        · rw [List.drop_eq_nil_of_le hle]
          have h1 : (a :: t).length + S - 1 = ((a :: t).length - 1) + S := by omega
          have h2 : (a :: t).length - 1 < S := by omega
          have h3 : (S - 1) < S := by omega
          simp only [List.length_nil, Nat.zero_add]
          rw [h1, Nat.add_div_right _ hS, Nat.div_eq_of_lt h2,
            Nat.div_eq_of_lt h3]
        · have h1 : (a :: t).length + S - 1 =
              (((a :: t).drop S).length + S - 1) + S := by
            simp only [List.length_drop]
            omega
          rw [h1, Nat.add_div_right _ hS]
      · rw [hgo]
        rcases le_or_lt (a :: t).length S with hle | hlt
        · rw [List.drop_eq_nil_of_le hle, splitChunksGo_nil]
          simp
        · have hne : splitChunksGo S n ((a :: t).drop S) ≠ [] := by
            refine splitChunksGo_ne_nil S n _ ?_ hdlen
            intro hnil
            have := congrArg List.length hnil
            simp only [List.length_drop, List.length_nil] at this
            omega
          obtain ⟨r, rs, hr⟩ := List.exists_cons_of_ne_nil hne
          rw [hr]
          intro c hc
          rw [List.dropLast_cons₂] at hc
          rcases List.mem_cons.mp hc with hc0 | hc1
          · subst hc0
            rw [List.length_take]
            omega
          · exact ihd c (by rw [hr]; exact hc1)
      · rw [hgo]
        intro c hc
        rcases List.mem_cons.mp hc with hc0 | hc1
        · subst hc0
          rw [List.length_take]
          omega
        · exact ihb c hc1

lemma splitChunks_flatten (T : Str) (S : Nat) (hS : 0 < S) :
    (splitChunks T S).flatten = T :=
  (splitChunksGo_spec S hS T.length T le_rfl).1

lemma splitChunks_length (T : Str) (S : Nat) (hS : 0 < S) :
    (splitChunks T S).length = (T.length + S - 1) / S :=
  (splitChunksGo_spec S hS T.length T le_rfl).2.1

/-! ## C4 -/

/-- C4: for every text `T` and positive chunk size `S`, the split produces
`ceil(len(T)/S)` chunks whose in-order concatenation reconstructs `T` (hence
the chunk lengths sum to `len(T)`), every chunk except possibly the last has
length exactly `S` and none exceeds `S`; empty text yields zero chunks and
the pipeline then returns an empty result (and an empty trace) rather than
an error. -/
theorem split_chunks_spec (T : Str) (S : Nat) (hS : 0 < S) :
    (splitChunks T S).flatten = T
    ∧ ((splitChunks T S).map List.length).sum = T.length
    ∧ (splitChunks T S).length = (T.length + S - 1) / S
    ∧ (∀ c ∈ (splitChunks T S).dropLast, c.length = S)
    ∧ (∀ c ∈ splitChunks T S, c.length ≤ S)
    ∧ splitChunks ([] : Str) S = []
    ∧ (∀ (J : Type) (client : Str → Str → List J) (prompt : Str),
        process_text_in_chunks_for_api J client [] prompt S = ([], [])) := by
  obtain ⟨hj, hl, hd, hb⟩ := splitChunksGo_spec S hS T.length T le_rfl
  refine ⟨hj, ?_, hl, hd, hb, rfl, fun J client prompt => rfl⟩
  rw [← List.length_flatten, splitChunks_flatten T S hS]

/-- C4 witness: the theorem applied to a concrete 5-character text with
chunk size 2. -/
theorem split_chunks_spec_witness :
    (splitChunks "abcde".toList 2).flatten = "abcde".toList
    ∧ (splitChunks "abcde".toList 2).length = 3 := by
  have h := split_chunks_spec "abcde".toList 2 (by decide)
  exact ⟨h.1, h.2.2.1.trans (by decide)⟩

/-! ## Helper lemmas: the chunk loop -/

lemma isEmpty_guard_append (J : Type) (d r : List J) :
    (if d.isEmpty then [] else d) ++ r = d ++ r := by
  cases d <;> simp

lemma processChunksGo_spec (J : Type) (client : Str → Str → List J)
    (prompt : Str) : ∀ cs : List Str,
      (processChunksGo J client prompt cs).2 = cs
      ∧ (processChunksGo J client prompt cs).1
          = (cs.map (fun c => client c prompt)).flatten := by
  intro cs
  induction cs with
  | nil => exact ⟨rfl, rfl⟩
  | cons c cs ih =>
    refine ⟨?_, ?_⟩
    · show c :: (processChunksGo J client prompt cs).2 = c :: cs
      rw [ih.1]
    · show (if (client c prompt).isEmpty then [] else client c prompt)
          ++ (processChunksGo J client prompt cs).1
          = ((c :: cs).map (fun c => client c prompt)).flatten
      rw [isEmpty_guard_append, ih.2, List.map_cons, List.flatten_cons]

/-! ## C5 -/

/-- C5: the pipeline's invocation trace is exactly the chunk list, in chunk
order (one client call per chunk), and its result is the concatenation of the
per-chunk record lists in that same order, with no deduplication or
reordering; in particular a 7000-character text with chunk size 3000 leads to
exactly 3 invocations. -/
theorem process_chunks_order_concat (J : Type) (client : Str → Str → List J)
    (T : Str) (prompt : Str) (S : Nat) :
    (process_text_in_chunks_for_api J client T prompt S).2 = splitChunks T S
    ∧ (process_text_in_chunks_for_api J client T prompt S).1
        = ((splitChunks T S).map (fun c => client c prompt)).flatten
    ∧ (T.length = 7000 → S = 3000 →
        (process_text_in_chunks_for_api J client T prompt S).2.length = 3) := by
  obtain ⟨htr, hres⟩ := processChunksGo_spec J client prompt (splitChunks T S)
  refine ⟨htr, hres, ?_⟩
  intro h7 h3
  subst h3
  show (processChunksGo J client prompt (splitChunks T 3000)).2.length = 3
  rw [htr, splitChunks_length T 3000 (by norm_num), h7]

/-- C5 witness: the theorem applied to a concrete 7000-character text with
chunk size 3000 yields exactly 3 client invocations. -/
theorem process_chunks_order_concat_witness :
    (process_text_in_chunks_for_api Nat (fun _ _ => [0])
      (List.replicate 7000 'a') "p".toList 3000).2.length = 3 := by
  exact (process_chunks_order_concat Nat (fun _ _ => [0])
    (List.replicate 7000 'a') "p".toList 3000).2.2 (List.length_replicate 7000 'a') rfl

/-! ## C1 -/

/-- C1 counterexample: `process_text_in_chunks_for_api` (the pipeline of the
claim) validates nothing and raises no `ValidationError` — it is a total
function in this embedding because the Python body contains no `raise` and no
failing operation on these inputs.  On empty text it returns the empty record
list (with zero client invocations) instead of an error, and with an empty
prompt it runs normally and returns the client's records. -/
theorem pipeline_validation_counterexample :
    process_text_in_chunks_for_api Nat (fun _ _ => [0]) [] "p".toList 3000
      = ([], [])
    ∧ process_text_in_chunks_for_api Nat (fun _ _ => [0]) "t".toList [] 3000
      = ([0], ["t".toList]) := by
  exact ⟨rfl, by decide⟩

/-- C1 (amended): the pipeline itself performs no validation: for empty text
it returns an empty result (and for an empty prompt it proceeds normally, as
the counterexample shows); the rejection of empty extracted text happens at
the HTTP boundary, which answers status 400 before invoking the pipeline,
while an empty (but present) `customPrompt` is not rejected anywhere. -/
theorem pipeline_empty_input_behavior :
    (∀ (J : Type) (client : Str → Str → List J) (prompt : Str) (S : Nat),
      process_text_in_chunks_for_api J client [] prompt S = ([], []))
    ∧ (∀ (J B : Type) (env : Option Str) (d : RequestData)
        (b64decode : Str → Option B)
        (extract_text : B → Option Str → Except Unit Str)
        (process : Str → Str → List J) (pc cp : Str) (bytes : B)
        (keys : List Str),
        initialize_gemini_api_keys env = Except.ok keys →
        d.pdfContent = some pc → d.customPrompt = some cp → pc ≠ [] →
        b64decode pc = some bytes →
        extract_text bytes d.pageRange = Except.ok [] →
        extract_flashcards_endpoint J B env (some d) b64decode extract_text
          process = HttpResponse.failure 400) := by
  refine ⟨fun J client prompt S => rfl, ?_⟩
  intro J B env d b64decode extract_text process pc cp bytes keys
  intro hinit hpdf hcp hpc hb64 hext
  unfold extract_flashcards_endpoint
  rw [hinit]
  simp only [hpdf, hcp, hb64, hext, if_neg hpc]
  rw [if_pos trivial]

/-- C1 witness for the amended claim: a concrete request whose PDF decodes
and extracts to empty text (and whose `customPrompt` is the empty string,
which passes the presence check) gets a 400 response from the boundary,
while the pipeline itself returns an empty result for empty text. -/
theorem pipeline_empty_input_behavior_witness :
    process_text_in_chunks_for_api Nat (fun _ _ => [1]) [] [] 5 = ([], [])
    ∧ extract_flashcards_endpoint Nat Unit (some "k".toList)
        (some ⟨some "QQ==".toList, none, some []⟩) (fun _ => some ())
        (fun _ _ => Except.ok []) (fun _ _ => [])
      = HttpResponse.failure 400 := by
  refine ⟨pipeline_empty_input_behavior.1 Nat (fun _ _ => [1]) [] 5, ?_⟩
  exact pipeline_empty_input_behavior.2 Nat Unit (some "k".toList)
    ⟨some "QQ==".toList, none, some []⟩ (fun _ => some ())
    (fun _ _ => Except.ok []) (fun _ _ => []) "QQ==".toList [] () ["k".toList]
    rfl rfl rfl (by decide) rfl rfl

/-! ## Helper lemmas: the key rotator -/

lemma getD_eq_get (l : List Str) (d : Str) :
    ∀ (i : Nat) (h : i < l.length), l.getD i d = l.get ⟨i, h⟩ := by
  induction l with
  | nil => intro i h; simp at h
  | cons a t ih =>
    intro i h
    cases i with
    | zero => rfl
    | succ n => exact ih n (by simpa using h)

lemma KeyRotator.draws_length (r : KeyRotator) :
    ∀ n : Nat, (KeyRotator.draws r n).length = n := by
  intro n
  induction n generalizing r with
  | zero => rfl
  | succ m ih => simpa [KeyRotator.draws] using ih r.next.2

lemma KeyRotator.draws_eq_map (keys : List Str) :
    ∀ (N idx : Nat), KeyRotator.draws ⟨keys, idx⟩ N
      = (List.range N).map (fun j => keys.getD ((idx + j) % keys.length) []) := by
  intro N
  induction N with
  | zero => intro idx; rfl
  | succ n ih =>
    intro idx
    rw [List.range_succ_eq_map, List.map_cons, List.map_map]
    show keys.getD (idx % keys.length) []
        :: KeyRotator.draws ⟨keys, idx + 1⟩ n = _
    rw [ih (idx + 1)]
    refine congrArg₂ List.cons ?_ ?_
    · simp
    · apply List.map_congr_left
      intro j hj
      simp only [Function.comp_apply]
      congr 2
      omega

/-- One step of the round-robin count bookkeeping, with the division already
split into quotient `q` and remainder `r`. -/
lemma div_mod_step (K j q r : Nat) (hj : j < K) (hr : r < K) :
    (q + if j < r then 1 else 0) + (if r = j then 1 else 0)
      = (q * K + (r + 1)) / K + if j < (q * K + (r + 1)) % K then 1 else 0 := by
  have hK : 0 < K := Nat.lt_of_le_of_lt (Nat.zero_le j) hj
  rcases lt_or_le (r + 1) K with hlt | hge
  · have hd : (q * K + (r + 1)) / K = q := by
      rw [mul_comm, Nat.mul_add_div hK, Nat.div_eq_of_lt hlt, Nat.add_zero]
    have hm : (q * K + (r + 1)) % K = r + 1 := by
      rw [mul_comm, Nat.mul_add_mod, Nat.mod_eq_of_lt hlt]
    rw [hd, hm]
    split_ifs <;> omega
  · have hKe : r + 1 = K := by omega
    have h1 : q * K + (r + 1) = (q + 1) * K := by rw [hKe]; ring
    have hd : (q * K + (r + 1)) / K = q + 1 := by
      rw [h1, Nat.mul_div_cancel _ hK]
    have hm : (q * K + (r + 1)) % K = 0 := by
      rw [h1, Nat.mul_mod_left]
    rw [hd, hm]
    split_ifs <;> omega

lemma count_singleton_cond (a b : Str) :
    List.count a [b] = if b = a then 1 else 0 := by
  by_cases h : b = a <;> simp [List.count_cons, h]

lemma count_draws_map (keys : List Str) (hnd : keys.Nodup)
    (hK : 0 < keys.length) (j : Nat) (hj : j < keys.length) :
    ∀ N : Nat, List.count (keys.get ⟨j, hj⟩)
        ((List.range N).map (fun i => keys.getD (i % keys.length) []))
      = N / keys.length + if j < N % keys.length then 1 else 0 := by
  intro N
  induction N with
  | zero => simp
  | succ n ih =>
    rw [List.range_succ, List.map_append, List.count_append, ih]
    have hmod : n % keys.length < keys.length := Nat.mod_lt n hK
    rw [List.map_cons, List.map_nil, getD_eq_get keys [] (n % keys.length) hmod,
      count_singleton_cond]
    simp only [hnd.get_inj_iff, Fin.mk.injEq]
    have hsplit : n + 1
        = n / keys.length * keys.length + (n % keys.length + 1) := by
      calc n + 1 = (n / keys.length * keys.length + n % keys.length) + 1 := by
            rw [Nat.div_add_mod']
        _ = n / keys.length * keys.length + (n % keys.length + 1) := by
            rw [Nat.add_assoc]
    rw [hsplit]
    exact div_mod_step keys.length j (n / keys.length) (n % keys.length) hj hmod

/-! ## C8 -/

/-- C8: starting from a fresh rotator over a duplicate-free non-empty pool,
`N` calls of `next()` yield `keys[i % K]` at the `i`-th call (pool order,
wrapping around indefinitely; the model is a total function, so it never
blocks or fails), and each pool position `j` is drawn exactly
`N / K + (1 if j < N % K else 0)` times. -/
theorem key_rotator_cycle_counts (keys : List Str) (N : Nat)
    (hne : keys ≠ []) (hnd : keys.Nodup) :
    KeyRotator.draws ⟨keys, 0⟩ N
      = (List.range N).map (fun i => keys.getD (i % keys.length) [])
    ∧ ∀ (j : Nat) (hj : j < keys.length),
        List.count (keys.get ⟨j, hj⟩) (KeyRotator.draws ⟨keys, 0⟩ N)
          = N / keys.length + if j < N % keys.length then 1 else 0 := by
  have hK : 0 < keys.length := List.length_pos.mpr hne
  have hmap : KeyRotator.draws ⟨keys, 0⟩ N
      = (List.range N).map (fun i => keys.getD (i % keys.length) []) := by
    rw [KeyRotator.draws_eq_map]
    apply List.map_congr_left
    intro i hi
    congr 2
    omega
  refine ⟨hmap, ?_⟩
  intro j hj
  rw [hmap]
  exact count_draws_map keys hnd hK j hj N

/-- C8 witness: 7 draws from the pool `["a", "b", "c"]` return position 1
(`"b"`) exactly `7 / 3 + 0 = 2` times. -/
theorem key_rotator_cycle_counts_witness :
    List.count ((["a".toList, "b".toList, "c".toList] : List Str).get ⟨1, by decide⟩)
        (KeyRotator.draws ⟨["a".toList, "b".toList, "c".toList], 0⟩ 7)
      = 7 / 3 + if 1 < 7 % 3 then 1 else 0 := by
  exact (key_rotator_cycle_counts ["a".toList, "b".toList, "c".toList] 7
    (by decide) (by decide)).2 1 (by decide)

/-! ## Helper lemmas: the retry loop -/

lemma range_map_pow_cons (delay i n : Nat) :
    (List.range (n + 1)).map (fun j => delay * 2 ^ (i + j))
      = delay * 2 ^ i :: (List.range n).map (fun j => delay * 2 ^ (i + 1 + j)) := by
  rw [List.range_succ_eq_map, List.map_cons, List.map_map]
  refine congrArg₂ List.cons ?_ ?_
  · simp
  · apply List.map_congr_left
    intro j hj
    simp only [Function.comp_apply]
    congr 2
    omega

lemma chain_lt_pow_sleeps (delay : Nat) (hd : 0 < delay) :
    ∀ (n i : Nat),
      List.Chain' (· < ·) ((List.range n).map (fun j => delay * 2 ^ (i + j))) := by
  intro n
  induction n with
  | zero => intro i; simp
  | succ m ih =>
    intro i
    rw [range_map_pow_cons]
    cases m with
    | zero => simp
    | succ m' =>
      rw [List.chain'_cons']
      refine ⟨?_, ih (i + 1)⟩
      intro y hy
      rw [range_map_pow_cons] at hy
      simp only [List.head?_cons, Option.mem_def, Option.some.injEq] at hy
      subst hy
      have ha : 0 < delay * 2 ^ i :=
        Nat.mul_pos hd (pow_pos (by norm_num) i)
      rw [pow_succ, ← Nat.mul_assoc]
      omega

lemma callGeminiGo_success_step (J : Type) (decode : Str → Option (Decoded J))
    (api : Nat → Option Str) (delay i fuel : Nat) (rot : KeyRotator) (l : List J)
    (h0 : attemptOutcome J decode api i = some l) :
    callGeminiGo J decode api delay i (fuel + 1) rot = ⟨l, 1, [], [rot.next.1]⟩ := by
  conv_lhs => rw [callGeminiGo]
  rw [h0]

lemma callGeminiGo_last_fail_step (J : Type) (decode : Str → Option (Decoded J))
    (api : Nat → Option Str) (delay i : Nat) (rot : KeyRotator)
    (h0 : attemptOutcome J decode api i = none) :
    callGeminiGo J decode api delay i 1 rot = ⟨[], 1, [], [rot.next.1]⟩ := by
  conv_lhs => rw [callGeminiGo]
  rw [h0]
  rfl

lemma callGeminiGo_fail_step (J : Type) (decode : Str → Option (Decoded J))
    (api : Nat → Option Str) (delay i m : Nat) (rot : KeyRotator)
    (h0 : attemptOutcome J decode api i = none) :
    callGeminiGo J decode api delay i (m + 2) rot
      = ⟨(callGeminiGo J decode api delay (i + 1) (m + 1) rot.next.2).records,
         (callGeminiGo J decode api delay (i + 1) (m + 1) rot.next.2).attempts + 1,
         delay * 2 ^ i
           :: (callGeminiGo J decode api delay (i + 1) (m + 1) rot.next.2).sleeps,
         rot.next.1
           :: (callGeminiGo J decode api delay (i + 1) (m + 1) rot.next.2).keysDrawn⟩ := by
  conv_lhs => rw [callGeminiGo]
  rw [h0]
  rfl

lemma callGeminiGo_all_fail (J : Type) (decode : Str → Option (Decoded J))
    (api : Nat → Option Str) (delay : Nat) :
    ∀ (fuel i : Nat) (rot : KeyRotator), 0 < fuel →
      (∀ j < fuel, attemptOutcome J decode api (i + j) = none) →
      callGeminiGo J decode api delay i fuel rot
        = ⟨[], fuel, (List.range (fuel - 1)).map (fun j => delay * 2 ^ (i + j)),
            KeyRotator.draws rot fuel⟩ := by
  intro fuel
  induction fuel with
  | zero => intro i rot h; omega
  | succ n ih =>
    intro i rot hpos hfail
    have h0 : attemptOutcome J decode api i = none := by
      have := hfail 0 (Nat.succ_pos n)
      simpa using this
    cases n with
    | zero =>
      rw [callGeminiGo_last_fail_step J decode api delay i rot h0]
      simp [KeyRotator.draws]
    | succ m =>
      have hfail' : ∀ j < m + 1, attemptOutcome J decode api (i + 1 + j) = none := by
        intro j hj
        have := hfail (j + 1) (by omega)
        rwa [show i + (j + 1) = i + 1 + j from by omega] at this
      rw [callGeminiGo_fail_step J decode api delay i m rot h0]
      rw [ih (i + 1) rot.next.2 (Nat.succ_pos m) hfail']
      simp only [Nat.add_sub_cancel]
      rw [range_map_pow_cons delay i m]
      rfl

lemma callGeminiGo_success (J : Type) (decode : Str → Option (Decoded J))
    (api : Nat → Option Str) (delay : Nat) :
    ∀ (k fuel i : Nat) (rot : KeyRotator) (l : List J), k < fuel →
      (∀ j < k, attemptOutcome J decode api (i + j) = none) →
      attemptOutcome J decode api (i + k) = some l →
      callGeminiGo J decode api delay i fuel rot
        = ⟨l, k + 1, (List.range k).map (fun j => delay * 2 ^ (i + j)),
            KeyRotator.draws rot (k + 1)⟩ := by
  intro k
  induction k with
  | zero =>
    intro fuel i rot l hk hfail hsucc
    cases fuel with
    | zero => omega
    | succ m =>
      have h0 : attemptOutcome J decode api i = some l := by simpa using hsucc
      rw [callGeminiGo_success_step J decode api delay i m rot l h0]
      simp [KeyRotator.draws]
  | succ k ih =>
    intro fuel i rot l hk hfail hsucc
    cases fuel with
    | zero => omega
    | succ m =>
      have h0 : attemptOutcome J decode api i = none := by
        have := hfail 0 (Nat.succ_pos k)
        simpa using this
      have hfail' : ∀ j < k, attemptOutcome J decode api (i + 1 + j) = none := by
        intro j hj
        have := hfail (j + 1) (by omega)
        rwa [show i + (j + 1) = i + 1 + j from by omega] at this
      have hsucc' : attemptOutcome J decode api (i + 1 + k) = some l := by
        rwa [show i + (k + 1) = i + 1 + k from by omega] at hsucc
      cases m with
      | zero => omega
      | succ q =>
        rw [callGeminiGo_fail_step J decode api delay i q rot h0]
        rw [ih (q + 1) (i + 1) rot.next.2 l (by omega) hfail' hsucc']
        rw [range_map_pow_cons delay i k]
        rfl

lemma callGeminiGo_keys (J : Type) (decode : Str → Option (Decoded J))
    (api : Nat → Option Str) (delay : Nat) :
    ∀ (fuel i : Nat) (rot : KeyRotator),
      (callGeminiGo J decode api delay i fuel rot).keysDrawn
        = KeyRotator.draws rot (callGeminiGo J decode api delay i fuel rot).attempts := by
  intro fuel
  induction fuel with
  | zero => intro i rot; rfl
  | succ n ih =>
    intro i rot
    cases houtcome : attemptOutcome J decode api i with
    | some l =>
      rw [callGeminiGo_success_step J decode api delay i n rot l houtcome]
      simp [KeyRotator.draws]
    | none =>
      cases n with
      | zero =>
        rw [callGeminiGo_last_fail_step J decode api delay i rot houtcome]
        simp [KeyRotator.draws]
      | succ m =>
        rw [callGeminiGo_fail_step J decode api delay i m rot houtcome]
        show rot.next.1
            :: (callGeminiGo J decode api delay (i + 1) (m + 1) rot.next.2).keysDrawn
          = KeyRotator.draws rot
              ((callGeminiGo J decode api delay (i + 1) (m + 1) rot.next.2).attempts + 1)
        rw [ih (i + 1) rot.next.2]
        rfl

/-! ## C2 -/

/-- C2: when every one of the `retries` attempts raises a transport/API
failure, `call_gemini_api_for_extraction` absorbs all of them: it returns an
empty record list after exactly `retries` attempts, sleeping
`delay * 2 ^ (attempt - 1)` seconds between consecutive failed attempts
(no sleep after the last), a strictly increasing backoff for positive
`delay` (the code's default is 2). -/
theorem call_gemini_all_fail_spec (J : Type) (decode : Str → Option (Decoded J))
    (api : Nat → Option Str) (retries delay : Nat) (rot : KeyRotator)
    (hfail : ∀ i < retries, api i = none) (hdelay : 0 < delay) :
    (call_gemini_api_for_extraction J decode api retries delay rot).records = []
    ∧ (call_gemini_api_for_extraction J decode api retries delay rot).attempts = retries
    ∧ (call_gemini_api_for_extraction J decode api retries delay rot).sleeps
        = (List.range (retries - 1)).map (fun i => delay * 2 ^ i)
    ∧ List.Chain' (· < ·)
        (call_gemini_api_for_extraction J decode api retries delay rot).sleeps := by
  cases retries with
  | zero => exact ⟨rfl, rfl, rfl, by simp [call_gemini_api_for_extraction, callGeminiGo]⟩
  | succ n =>
    have hout : ∀ j < n + 1, attemptOutcome J decode api (0 + j) = none := by
      intro j hj
      have hj' := hfail j hj
      simp only [Nat.zero_add]
      simp [attemptOutcome, hj']
    have hgo := callGeminiGo_all_fail J decode api delay (n + 1) 0 rot (Nat.succ_pos n) hout
    have hmap : (List.range (n + 1 - 1)).map (fun j => delay * 2 ^ (0 + j))
        = (List.range (n + 1 - 1)).map (fun i => delay * 2 ^ i) := by
      apply List.map_congr_left
      intro j hj
      congr 2
      omega
    refine ⟨?_, ?_, ?_, ?_⟩
    · show (callGeminiGo J decode api delay 0 (n + 1) rot).records = []
      rw [hgo]
    · show (callGeminiGo J decode api delay 0 (n + 1) rot).attempts = n + 1
      rw [hgo]
    · show (callGeminiGo J decode api delay 0 (n + 1) rot).sleeps = _
      rw [hgo]
      exact hmap
    · show List.Chain' (· < ·) (callGeminiGo J decode api delay 0 (n + 1) rot).sleeps
      rw [hgo]
      exact chain_lt_pow_sleeps delay hdelay (n + 1 - 1) 0

/-- C2 witness: an always-failing API stub with 3 retries and base delay 2
gives `[]`, exactly 3 attempts, and the strictly increasing sleeps `[2, 4]`. -/
theorem call_gemini_all_fail_spec_witness :
    (call_gemini_api_for_extraction Nat (fun _ => none) (fun _ => none) 3 2
      ⟨["k1".toList, "k2".toList], 0⟩).records = []
    ∧ (call_gemini_api_for_extraction Nat (fun _ => none) (fun _ => none) 3 2
      ⟨["k1".toList, "k2".toList], 0⟩).attempts = 3
    ∧ (call_gemini_api_for_extraction Nat (fun _ => none) (fun _ => none) 3 2
      ⟨["k1".toList, "k2".toList], 0⟩).sleeps = [2, 4]
    ∧ List.Chain' (· < ·) (call_gemini_api_for_extraction Nat (fun _ => none)
      (fun _ => none) 3 2 ⟨["k1".toList, "k2".toList], 0⟩).sleeps := by
  have h := call_gemini_all_fail_spec Nat (fun _ => none) (fun _ => none) 3 2
    ⟨["k1".toList, "k2".toList], 0⟩ (fun i _ => rfl) (by norm_num)
  exact ⟨h.1, h.2.1, h.2.2.1.trans (by decide), h.2.2.2⟩

/-! ## C7 -/

/-- C7: every execution draws exactly one credential per attempt: the drawn
credentials are precisely the first `attempts` outputs of the rotator, so an
execution with `k` attempts performs exactly `k` rotation draws; in
particular a stub failing on the first `k` attempts and succeeding on
attempt `k + 1` sees `k + 1` rotated credentials. -/
theorem call_gemini_key_draws (J : Type) (decode : Str → Option (Decoded J))
    (api : Nat → Option Str) (retries delay : Nat) (rot : KeyRotator) :
    (call_gemini_api_for_extraction J decode api retries delay rot).keysDrawn
      = KeyRotator.draws rot
          (call_gemini_api_for_extraction J decode api retries delay rot).attempts
    ∧ (call_gemini_api_for_extraction J decode api retries delay rot).keysDrawn.length
      = (call_gemini_api_for_extraction J decode api retries delay rot).attempts
    ∧ ∀ (k : Nat) (l : List J), k < retries →
        (∀ j < k, attemptOutcome J decode api j = none) →
        attemptOutcome J decode api k = some l →
        (call_gemini_api_for_extraction J decode api retries delay rot).attempts = k + 1
        ∧ (call_gemini_api_for_extraction J decode api retries delay rot).keysDrawn
            = KeyRotator.draws rot (k + 1) := by
  have h1 := callGeminiGo_keys J decode api delay retries 0 rot
  refine ⟨h1, ?_, ?_⟩
  · show (callGeminiGo J decode api delay 0 retries rot).keysDrawn.length
        = (callGeminiGo J decode api delay 0 retries rot).attempts
    rw [h1, KeyRotator.draws_length]
  · intro k l hk hfail hsucc
    have hfail' : ∀ j < k, attemptOutcome J decode api (0 + j) = none := by
      intro j hj
      simpa using hfail j hj
    have hsucc' : attemptOutcome J decode api (0 + k) = some l := by simpa using hsucc
    have hgo := callGeminiGo_success J decode api delay k retries 0 rot l hk hfail' hsucc'
    constructor
    · show (callGeminiGo J decode api delay 0 retries rot).attempts = k + 1
      rw [hgo]
    · show (callGeminiGo J decode api delay 0 retries rot).keysDrawn
        = KeyRotator.draws rot (k + 1)
      rw [hgo]

/-- C7 witness: a stub that fails twice and then returns a parsable `"[]"`
makes 3 attempts and draws the 3 successive pool credentials. -/
theorem call_gemini_key_draws_witness :
    (call_gemini_api_for_extraction Nat
        (fun s => if s = "[]".toList then some (Decoded.arr []) else none)
        (fun j => if j < 2 then none else some "[]".toList) 5 2
        ⟨["a".toList, "b".toList, "c".toList], 0⟩).attempts = 3
    ∧ (call_gemini_api_for_extraction Nat
        (fun s => if s = "[]".toList then some (Decoded.arr []) else none)
        (fun j => if j < 2 then none else some "[]".toList) 5 2
        ⟨["a".toList, "b".toList, "c".toList], 0⟩).keysDrawn
      = ["a".toList, "b".toList, "c".toList] := by
  have h := (call_gemini_key_draws Nat
    (fun s => if s = "[]".toList then some (Decoded.arr []) else none)
    (fun j => if j < 2 then none else some "[]".toList) 5 2
    ⟨["a".toList, "b".toList, "c".toList], 0⟩).2.2 2 []
    (by norm_num) (by decide) (by decide)
  exact ⟨h.1, h.2.trans (by decide)⟩

/-! ## C3 -/

/-- C3: the claim's non-array clause fails on the code.  A raw response whose
candidate decodes to an unsized JSON scalar — here the concrete input `"5"`,
with the loads-oracle answering exactly as `json.loads("5")` does — makes
lines 106-121 raise: `len(extracted_data)` in the logging call runs before
the `isinstance(..., list)` guard and `len(5)` is a `TypeError`, which the
inner `except json.JSONDecodeError` does not catch.  The parse therefore
ends in an escaped exception (`Except.error`), not in the empty sequence the
claim requires. -/
theorem response_parse_scalar_raises :
    runParse Nat (fun s => if s = "5".toList then some Decoded.unsized else none)
      "5".toList = Except.error () := rfl

/-! ## C6 -/

/-- C6: the claim fails on the code at a concrete input.  A stub whose very
first attempt is transport/API-successful with body `"5"` (the loads-oracle
again modelling `json.loads("5")`) is *not* returned immediately: the
`TypeError` from `len(5)` reaches the retry handler, so with 2 retries and
base delay 2 the code performs 2 attempts and sleeps once (2 seconds)
instead of returning the parser's result after attempt 1. -/
theorem call_gemini_scalar_success_retried :
    (call_gemini_api_for_extraction Nat
        (fun s => if s = "5".toList then some Decoded.unsized else none)
        (fun _ => some "5".toList) 2 2 ⟨["k".toList], 0⟩).attempts = 2
    ∧ (call_gemini_api_for_extraction Nat
        (fun s => if s = "5".toList then some Decoded.unsized else none)
        (fun _ => some "5".toList) 2 2 ⟨["k".toList], 0⟩).sleeps = [2] :=
  ⟨rfl, rfl⟩

/-! ## C9 -/

/-- C9: credential-pool initialization fails (with one of the two
configuration `ValueError`s) exactly when the backing variable is unset or
its comma-separated list has no non-empty stripped entry, and in that case
the endpoint answers status 500 for every request; when at least one
credential is configured, initialization succeeds with the non-empty key
pool. -/
theorem api_keys_initialization :
    (∀ env : Option Str,
      (env = none ∨ ∃ s, env = some s ∧ validKeys s = []) →
        (∃ e, initialize_gemini_api_keys env = Except.error e)
        ∧ ∀ (J B : Type) (data : Option RequestData) (b64decode : Str → Option B)
            (extract_text : B → Option Str → Except Unit Str)
            (process : Str → Str → List J),
            extract_flashcards_endpoint J B env data b64decode extract_text process
              = HttpResponse.failure 500)
    ∧ (∀ s : Str, validKeys s ≠ [] →
        initialize_gemini_api_keys (some s) = Except.ok (validKeys s)) := by
  constructor
  · intro env h
    have herr : ∃ e, initialize_gemini_api_keys env = Except.error e := by
      rcases h with h | ⟨s, hs, hv⟩
      · subst h
        exact ⟨.notSet, rfl⟩
      · subst hs
        by_cases hnil : s = []
        · subst hnil
          exact ⟨.notSet, rfl⟩
        · refine ⟨.noValidKeys, ?_⟩
          simp only [initialize_gemini_api_keys]
          rw [if_neg hnil, if_pos hv]
    obtain ⟨e, he⟩ := herr
    refine ⟨⟨e, he⟩, ?_⟩
    intro J B data b64decode extract_text process
    unfold extract_flashcards_endpoint
    rw [he]
  · intro s hs
    have hnil : s ≠ [] := by
      intro h
      apply hs
      rw [h]
      rfl
    simp only [initialize_gemini_api_keys]
    rw [if_neg hnil, if_neg hs]

/-- C9 witness: an all-blank credential list yields a 500 response from the
endpoint, and a list with two real entries initializes to that key pool. -/
theorem api_keys_initialization_witness :
    extract_flashcards_endpoint Nat Unit (some ",,  ,".toList) none
        (fun _ => none) (fun _ _ => Except.error ()) (fun _ _ => [])
      = HttpResponse.failure 500
    ∧ initialize_gemini_api_keys (some " a ,b".toList)
      = Except.ok ["a".toList, "b".toList] := by
  constructor
  · exact (api_keys_initialization.1 (some ",,  ,".toList)
      (Or.inr ⟨",,  ,".toList, rfl, by decide⟩)).2 Nat Unit none
      (fun _ => none) (fun _ _ => Except.error ()) (fun _ _ => [])
  · exact (api_keys_initialization.2 " a ,b".toList (by decide)).trans rfl

/-! ## C10 -/

/-- C10: page selection in `extract_text_from_pdf_bytes` is total on any
parsed `pageRange` list: out-of-bounds page numbers are silently dropped
(membership in the result is exactly "requested and within 1..numPages"),
duplicates are collapsed and the surviving pages come out in strictly
ascending order; the result depends only on the multiset of parsed pages, so
the order and grouping of the written ranges is irrelevant. -/
theorem page_range_selection (s : Str) (pages : List Int) (N : Nat)
    (_h : parse_page_range_str s = some pages) :
    (pages_to_extract pages N).Sorted (· < ·)
    ∧ (∀ p : Int, p ∈ pages_to_extract pages N
        ↔ p ∈ pages ∧ 1 ≤ p ∧ p ≤ (N : Int))
    ∧ (∀ (s' : Str) (pages' : List Int), parse_page_range_str s' = some pages' →
        List.Perm pages' pages →
        pages_to_extract pages' N = pages_to_extract pages N) := by
  have hsorted : ∀ l : List Int, (pages_to_extract l N).Sorted (· ≤ ·) :=
    fun l => List.sorted_insertionSort _ _
  refine ⟨?_, ?_, ?_⟩
  · have hnd : (pages_to_extract pages N).Nodup :=
      (List.perm_insertionSort _ _).symm.nodup (List.nodup_dedup _)
    exact (hsorted pages).lt_of_le hnd
  · intro p
    unfold pages_to_extract
    rw [(List.perm_insertionSort _ _).mem_iff, List.mem_dedup, List.mem_filter]
    simp [Bool.and_eq_true, decide_eq_true_eq, and_assoc]
  · intro s' pages' h' hperm
    refine List.eq_of_perm_of_sorted ?_ (hsorted pages') (hsorted pages)
    exact (List.perm_insertionSort _ _).trans
      (((hperm.filter _).dedup).trans (List.perm_insertionSort _ _).symm)

/-- C10 witness: the range string `"7,3-5,3"` parses to `[7, 3, 4, 5, 3]`;
against a 4-page document the selection is strictly sorted and page 5 is
dropped as out of bounds. -/
theorem page_range_selection_witness :
    (pages_to_extract [7, 3, 4, 5, 3] 4).Sorted (· < ·)
    ∧ ((5 : Int) ∈ pages_to_extract [7, 3, 4, 5, 3] 4
        ↔ (5 : Int) ∈ ([7, 3, 4, 5, 3] : List Int)
          ∧ 1 ≤ (5 : Int) ∧ (5 : Int) ≤ ((4 : Nat) : Int)) := by
  have h := page_range_selection "7,3-5,3".toList [7, 3, 4, 5, 3] 4 (by decide)
  exact ⟨h.1, h.2.1 5⟩

end Flashcards
